import Mathlib

/-!
Verification of the document chunking and embedding/similarity pipeline of
the Kg-builder-hybrid repository (src/core/document_processor.py and
src/core/embedding_manager.py), via a shallow embedding in Lean 4.

Strings are modelled as lists of characters (`Str`); Python whitespace is
modelled by its ASCII subset, which covers every character the repository's
regular expressions and `str.strip`/`str.split` calls distinguish.
Floating-point numbers are modelled by rationals; the square root used
inside cosine similarity and the 4-decimal rounding used by the cost
estimator are abstracted as function parameters, since none of the verified
properties depend on their numeric values.
-/

namespace KgBuilder

abbrev Str := List Char

/-- ASCII subset of Python's whitespace class (`\s`, `str.strip`, `str.split`). -/
def isPySpace (c : Char) : Bool :=
  c = ' ' || c = '\t' || c = '\n' || c = '\r' || c = '\x0b' || c = '\x0c'

/-- Python `str.strip()`: drop leading and trailing whitespace. -/
def pyStrip (s : Str) : Str :=
  ((s.dropWhile isPySpace).reverse.dropWhile isPySpace).reverse

/-- Helper for `pySplit`: accumulates the current word (reversed). -/
def pySplitAux : Str → Str → List Str
  | [], w => if w = [] then [] else [w.reverse]
  | c :: cs, w =>
    if isPySpace c then
      if w = [] then pySplitAux cs [] else w.reverse :: pySplitAux cs []
    else
      pySplitAux cs (c :: w)

/-- Python `str.split()` with no argument: split on whitespace runs, no empty fields. -/
def pySplit (s : Str) : List Str :=
  pySplitAux s []

/-- Python `' '.join(words)`. -/
def joinSpace (ws : List Str) : Str :=
  List.intercalate [' '] ws

/-- Python `lst[-k:]` for `k > 0`: the last `k` elements (all of them when `k ≥ len`). -/
def takeLast (k : Nat) (l : List Str) : List Str :=
  l.drop (l.length - k)

/-! ## Data model (document_processor.py) -/

/-- A paragraph record as built by `DocumentProcessor._extract_paragraphs`. -/
structure Paragraph where
  paragraph_id : Nat
  text : Str
  is_bullet : Bool
  is_numbered : Bool
  word_count : Nat
  deriving Repr, DecidableEq

/-- A table record as fed to `create_semantic_chunks` (`data` rows; a cell is
`none` for Python `None`, `some s` for a string). -/
structure Table where
  table_id : Str
  data : List (List (Option Str))
  deriving Repr, DecidableEq

/-- One entry of the `pages` list of an extraction result. -/
structure Page where
  page_number : Nat
  paragraphs : List Paragraph
  tables : List Table
  deriving Repr, DecidableEq

inductive ChunkType where
  | paragraph
  | table
  deriving Repr, DecidableEq

/-- A chunk record as built by `create_semantic_chunks`; `table_id` is `none`
on paragraph chunks (the Python dict has no such key there). -/
structure Chunk where
  chunk_id : Nat
  content : Str
  page_number : Nat
  paragraph_numbers : List Nat
  word_count : Nat
  char_count : Nat
  chunk_type : ChunkType
  table_id : Option Str
  deriving Repr, DecidableEq

/-! ## _table_to_text -/

/-- `str(cell) if cell else ''`: `None` and the empty string render as `''`. -/
def renderCell (cell : Option Str) : Str :=
  match cell with
  | none => []
  | some s => s

/-- `DocumentProcessor._table_to_text`: rows joined by `'\n'`, cells of a row
joined by `' | '`, empty (falsy) rows skipped, empty data gives `''`. -/
def table_to_text (data : List (List (Option Str))) : Str :=
  List.intercalate ['\n']
    ((data.filter (fun row => ¬ row = [])).map
      (fun row => List.intercalate [' ', '|', ' '] (row.map renderCell)))

/-! ## create_semantic_chunks

The Python method reads `self.chunk_size` and `self.chunk_overlap`; they are
passed explicitly here (`cs`, `ov`).  The loop over one page's paragraphs is
`paraLoop`; it returns the chunks emitted so far, the next chunk id, the
accumulator string and the accumulated contributing paragraph ids. -/

def mkParaChunk (id pn : Nat) (cur : Str) (paras : List Nat) : Chunk :=
  { chunk_id := id
    content := pyStrip cur
    page_number := pn
    paragraph_numbers := paras
    word_count := (pySplit cur).length
    char_count := cur.length
    chunk_type := ChunkType.paragraph
    table_id := none }

def paraLoop (cs ov pn : Nat) :
    List Paragraph → Nat → Str → List Nat → List Chunk × Nat × Str × List Nat
  | [], id, cur, ps => ([], id, cur, ps)
  | p :: rest, id, cur, ps =>
    if cs < (cur ++ p.text).length ∧ ¬ cur = [] then
      let c := mkParaChunk id pn cur ps
      let cur2 : Str :=
        if 0 < ov then
          joinSpace (takeLast ov (pySplit cur)) ++ [' '] ++ p.text
        else p.text
      let r := paraLoop cs ov pn rest (id + 1) cur2 [p.paragraph_id]
      (c :: r.1, r.2)
    else
      let cur2 : Str := if cur = [] then p.text else cur ++ [' '] ++ p.text
      paraLoop cs ov pn rest id cur2 (ps ++ [p.paragraph_id])

def mkTableChunk (id pn : Nat) (t : Table) : Chunk :=
  let content := table_to_text t.data
  { chunk_id := id
    content := content
    page_number := pn
    paragraph_numbers := []
    word_count := (pySplit content).length
    char_count := content.length
    chunk_type := ChunkType.table
    table_id := some t.table_id }

def tableLoop (pn : Nat) : List Table → Nat → List Chunk × Nat
  | [], id => ([], id)
  | t :: rest, id =>
    let r := tableLoop pn rest (id + 1)
    (mkTableChunk id pn t :: r.1, r.2)

/-- One iteration of the outer `for page in document_content['pages']` loop. -/
def processPage (cs ov : Nat) (page : Page) (id : Nat) : List Chunk × Nat :=
  let r := paraLoop cs ov page.page_number page.paragraphs id [] []
  let afterParas :=
    if ¬ pyStrip r.2.2.1 = [] then
      (r.1 ++ [mkParaChunk r.2.1 page.page_number r.2.2.1 r.2.2.2], r.2.1 + 1)
    else (r.1, r.2.1)
  let rt := tableLoop page.page_number page.tables afterParas.2
  (afterParas.1 ++ rt.1, rt.2)

def cscAux (cs ov : Nat) : List Page → Nat → List Chunk
  | [], _ => []
  | page :: rest, id =>
    let r := processPage cs ov page id
    r.1 ++ cscAux cs ov rest r.2

/-- `DocumentProcessor.create_semantic_chunks` on an extraction result whose
`pages` list is `doc`; `cs` is `self.chunk_size`, `ov` is `self.chunk_overlap`. -/
def create_semantic_chunks (cs ov : Nat) (doc : List Page) : List Chunk :=
  cscAux cs ov doc 1

/-! ## C1: chunk ids form the contiguous sequence 1..N -/

theorem paraLoop_ids (cs ov pn : Nat) :
    ∀ (ps : List Paragraph) (id : Nat) (cur : Str) (pr : List Nat),
    (paraLoop cs ov pn ps id cur pr).1.map Chunk.chunk_id
      = List.range' id (paraLoop cs ov pn ps id cur pr).1.length
    ∧ (paraLoop cs ov pn ps id cur pr).2.1
      = id + (paraLoop cs ov pn ps id cur pr).1.length := by
  intro ps
  induction ps with
  | nil => intro id cur pr; simp [paraLoop]
  | cons p rest ih =>
    intro id cur pr
    by_cases h : cs < (cur ++ p.text).length ∧ ¬ cur = []
    · simp only [paraLoop, if_pos h]
      obtain ⟨ih1, ih2⟩ := ih (id + 1)
        (if 0 < ov then joinSpace (takeLast ov (pySplit cur)) ++ [' '] ++ p.text else p.text)
        [p.paragraph_id]
      refine ⟨?_, ?_⟩
      · simp only [List.map_cons, List.length_cons, ih1, mkParaChunk, List.range'_succ]
      · simp only [List.length_cons, ih2]; omega
    · simp only [paraLoop, if_neg h]
      exact ih id _ _

theorem tableLoop_ids (pn : Nat) :
    ∀ (ts : List Table) (id : Nat),
    (tableLoop pn ts id).1.map Chunk.chunk_id
      = List.range' id (tableLoop pn ts id).1.length
    ∧ (tableLoop pn ts id).2 = id + (tableLoop pn ts id).1.length := by
  intro ts
  induction ts with
  | nil => intro id; simp [tableLoop]
  | cons t rest ih =>
    intro id
    obtain ⟨ih1, ih2⟩ := ih (id + 1)
    refine ⟨?_, ?_⟩
    · simp only [tableLoop, List.map_cons, List.length_cons, ih1, mkTableChunk,
        List.range'_succ]
    · simp only [tableLoop, List.length_cons, ih2]; omega

theorem chunk_ids_append {α : Type} (f : α → Nat) (l1 l2 : List α) (s t : Nat)
    (h1 : l1.map f = List.range' s l1.length)
    (h2 : l2.map f = List.range' t l2.length)
    (ht : t = s + l1.length) :
    (l1 ++ l2).map f = List.range' s (l1 ++ l2).length := by
  subst ht
  rw [List.map_append, h1, h2, List.length_append, List.range'_append_1, Nat.add_comm]

theorem processPage_ids (cs ov : Nat) (page : Page) (id : Nat) :
    (processPage cs ov page id).1.map Chunk.chunk_id
      = List.range' id (processPage cs ov page id).1.length
    ∧ (processPage cs ov page id).2 = id + (processPage cs ov page id).1.length := by
  obtain ⟨hp1, hp2⟩ := paraLoop_ids cs ov page.page_number page.paragraphs id [] []
  unfold processPage
  by_cases h : ¬ pyStrip (paraLoop cs ov page.page_number page.paragraphs id [] []).2.2.1 = []
  · simp only [if_pos h]
    set P := paraLoop cs ov page.page_number page.paragraphs id [] [] with hP
    set resid := mkParaChunk P.2.1 page.page_number P.2.2.1 P.2.2.2 with hresid
    obtain ⟨ht1, ht2⟩ := tableLoop_ids page.page_number page.tables (P.2.1 + 1)
    have h1 : (P.1 ++ [resid]).map Chunk.chunk_id
        = List.range' id (P.1 ++ [resid]).length := by
      apply chunk_ids_append Chunk.chunk_id _ _ id P.2.1 hp1 _ hp2
      simp [hresid, mkParaChunk, List.range']
    constructor
    · apply chunk_ids_append Chunk.chunk_id _ _ id (P.2.1 + 1) h1 ht1
      simp only [List.length_append, List.length_cons, List.length_nil]
      omega
    · simp only [List.length_append, List.length_cons, List.length_nil, ht2]
      omega
  · simp only [if_neg h]
    obtain ⟨ht1, ht2⟩ :=
      tableLoop_ids page.page_number page.tables
        (paraLoop cs ov page.page_number page.paragraphs id [] []).2.1
    constructor
    · exact chunk_ids_append Chunk.chunk_id _ _ id
        (paraLoop cs ov page.page_number page.paragraphs id [] []).2.1 hp1 ht1 hp2
    · simp only [List.length_append, ht2]
      omega

theorem cscAux_ids (cs ov : Nat) :
    ∀ (pages : List Page) (id : Nat),
    (cscAux cs ov pages id).map Chunk.chunk_id
      = List.range' id (cscAux cs ov pages id).length := by
  intro pages
  induction pages with
  | nil => intro id; simp [cscAux]
  | cons page rest ih =>
    intro id
    obtain ⟨hp1, hp2⟩ := processPage_ids cs ov page id
    exact chunk_ids_append Chunk.chunk_id _ _ id (processPage cs ov page id).2 hp1
      (ih (processPage cs ov page id).2) hp2

/-- C1: for every extraction input, the `chunk_id` fields of the list returned
by `create_semantic_chunks` form the contiguous sequence 1, 2, ..., N in output
order — starting at 1, strictly increasing, with no gaps or repeats, and not
reset per page. -/
theorem create_semantic_chunks_ids_contiguous (cs ov : Nat) (doc : List Page) :
    (create_semantic_chunks cs ov doc).map Chunk.chunk_id
      = List.range' 1 (create_semantic_chunks cs ov doc).length := by
  exact cscAux_ids cs ov doc 1

/-! ## C10: table chunks are always emitted, degenerate data included -/

theorem tableLoop_mem (pn : Nat) :
    ∀ (ts : List Table) (id : Nat) (t : Table), t ∈ ts →
    ∃ i, mkTableChunk i pn t ∈ (tableLoop pn ts id).1 := by
  intro ts
  induction ts with
  | nil => intro id t ht; cases ht
  | cons hd rest ih =>
    intro id t ht
    rcases List.mem_cons.mp ht with h | h
    · exact ⟨id, by simp [tableLoop, h]⟩
    · obtain ⟨i, hi⟩ := ih (id + 1) t h
      exact ⟨i, by simp only [tableLoop]; exact List.mem_cons_of_mem _ hi⟩

theorem processPage_table_mem (cs ov : Nat) (page : Page) (id : Nat) (t : Table)
    (ht : t ∈ page.tables) :
    ∃ i, mkTableChunk i page.page_number t ∈ (processPage cs ov page id).1 := by
  unfold processPage
  by_cases h : ¬ pyStrip (paraLoop cs ov page.page_number page.paragraphs id [] []).2.2.1 = []
  · simp only [if_pos h]
    obtain ⟨i, hi⟩ := tableLoop_mem page.page_number page.tables
      ((paraLoop cs ov page.page_number page.paragraphs id [] []).2.1 + 1) t ht
    exact ⟨i, List.mem_append_right _ hi⟩
  · simp only [if_neg h]
    obtain ⟨i, hi⟩ := tableLoop_mem page.page_number page.tables
      (paraLoop cs ov page.page_number page.paragraphs id [] []).2.1 t ht
    exact ⟨i, List.mem_append_right _ hi⟩

theorem cscAux_table_mem (cs ov : Nat) :
    ∀ (pages : List Page) (id : Nat) (page : Page), page ∈ pages →
    ∀ t ∈ page.tables,
    ∃ i, mkTableChunk i page.page_number t ∈ cscAux cs ov pages id := by
  intro pages
  induction pages with
  | nil => intro id page hp; cases hp
  | cons hd rest ih =>
    intro id page hp t ht
    rcases List.mem_cons.mp hp with h | h
    · subst h
      obtain ⟨i, hi⟩ := processPage_table_mem cs ov page id t ht
      exact ⟨i, by simp only [cscAux]; exact List.mem_append_left _ hi⟩
    · obtain ⟨i, hi⟩ := ih (processPage cs ov hd id).2 page h t ht
      exact ⟨i, by simp only [cscAux]; exact List.mem_append_right _ hi⟩

theorem renderCell_idem :
    (renderCell ∘ fun cell => some (renderCell cell)) = renderCell := by
  funext c
  cases c <;> rfl

theorem table_to_text_none_as_empty (data : List (List (Option Str))) :
    table_to_text (data.map (List.map (fun cell => some (renderCell cell))))
      = table_to_text data := by
  unfold table_to_text
  congr 1
  induction data with
  | nil => rfl
  | cons row rest ih =>
    simp only [List.map_cons, List.filter_cons]
    by_cases h : row = []
    · subst h
      simpa using ih
    · have h2 : ¬ (row.map (fun cell => some (renderCell cell))) = [] := by
        simpa using h
      simp only [h, h2, decide_not, decide_False, Bool.not_false, ite_true,
        List.map_cons, List.map_map, renderCell_idem, List.cons.injEq]
      exact ⟨trivial, by simpa [decide_not] using ih⟩

theorem table_to_text_skips_empty_rows (data : List (List (Option Str))) :
    table_to_text (data.filter (fun row => ¬ row = [])) = table_to_text data := by
  unfold table_to_text
  congr 1
  rw [List.filter_filter]
  simp

/-- C10: every table record of every page yields a table-kind chunk — no table
is ever skipped, `None`/empty cells render as empty strings, empty rows are
omitted, and a table whose `data` is the empty row list yields a chunk with
empty content and zero word and char counts. -/
theorem create_semantic_chunks_tables (cs ov : Nat) (doc : List Page) :
    (∀ page ∈ doc, ∀ t ∈ page.tables,
      ∃ c ∈ create_semantic_chunks cs ov doc,
        c.chunk_type = ChunkType.table ∧ c.table_id = some t.table_id ∧
        c.content = table_to_text t.data ∧
        c.word_count = (pySplit (table_to_text t.data)).length ∧
        c.char_count = (table_to_text t.data).length ∧
        c.page_number = page.page_number)
    ∧ (∀ page ∈ doc, ∀ t ∈ page.tables, t.data = [] →
      ∃ c ∈ create_semantic_chunks cs ov doc,
        c.chunk_type = ChunkType.table ∧ c.table_id = some t.table_id ∧
        c.content = [] ∧ c.word_count = 0 ∧ c.char_count = 0)
    ∧ (∀ data : List (List (Option Str)),
        table_to_text (data.map (List.map (fun cell => some (renderCell cell))))
          = table_to_text data
        ∧ table_to_text (data.filter (fun row => ¬ row = [])) = table_to_text data) := by
  refine ⟨?_, ?_, ?_⟩
  · intro page hp t ht
    obtain ⟨i, hi⟩ := cscAux_table_mem cs ov doc 1 page hp t ht
    exact ⟨mkTableChunk i page.page_number t, hi, rfl, rfl, rfl, rfl, rfl, rfl⟩
  · intro page hp t ht hdata
    obtain ⟨i, hi⟩ := cscAux_table_mem cs ov doc 1 page hp t ht
    refine ⟨mkTableChunk i page.page_number t, hi, rfl, rfl, ?_, ?_, ?_⟩
    all_goals
      simp [mkTableChunk, hdata, table_to_text, pySplit, pySplitAux, List.intercalate]
  · intro data
    exact ⟨table_to_text_none_as_empty data, table_to_text_skips_empty_rows data⟩

/-! ## C2: paragraph chunk size budget -/

theorem pyStrip_length_le (s : Str) : (pyStrip s).length ≤ s.length := by
  unfold pyStrip
  calc ((s.dropWhile isPySpace).reverse.dropWhile isPySpace).reverse.length
      = ((s.dropWhile isPySpace).reverse.dropWhile isPySpace).length := by
        rw [List.length_reverse]
    _ ≤ (s.dropWhile isPySpace).reverse.length :=
        (List.dropWhile_sublist _).length_le
    _ = (s.dropWhile isPySpace).length := by rw [List.length_reverse]
    _ ≤ s.length := (List.dropWhile_sublist _).length_le

def maxList : List Nat → Nat
  | [] => 0
  | n :: ns => Nat.max n (maxList ns)

theorem le_maxList {n : Nat} : ∀ {l : List Nat}, n ∈ l → n ≤ maxList l := by
  intro l
  induction l with
  | nil => intro h; cases h
  | cons m ms ih =>
    intro h
    rcases List.mem_cons.mp h with h | h
    · subst h; exact Nat.le_max_left _ _
    · exact Nat.le_trans (ih h) (Nat.le_max_right _ _)

def pageMaxParaLen (pg : Page) : Nat :=
  maxList (pg.paragraphs.map (fun p => p.text.length))

/-- The largest paragraph text length appearing anywhere in the document. -/
def maxParaTextLen (pages : List Page) : Nat :=
  maxList (pages.map pageMaxParaLen)

theorem paraLen_le_max {pages : List Page} {pg : Page} {p : Paragraph}
    (hpg : pg ∈ pages) (hp : p ∈ pg.paragraphs) :
    p.text.length ≤ maxParaTextLen pages := by
  have h1 : p.text.length ≤ pageMaxParaLen pg :=
    le_maxList (List.mem_map_of_mem _ hp)
  exact Nat.le_trans h1 (le_maxList (List.mem_map_of_mem _ hpg))

/-- Size invariant of the paragraph accumulator when `chunk_overlap = 0`. -/
theorem paraLoop_budget (cs pn M : Nat) :
    ∀ (ps : List Paragraph) (id : Nat) (cur : Str) (pr : List Nat),
    (∀ p ∈ ps, p.text.length ≤ M) →
    (cur = [] ∨ (cur.length ≤ Nat.max (cs + 1) M ∧ 1 ≤ M)) →
    (∀ c ∈ (paraLoop cs 0 pn ps id cur pr).1, c.content.length ≤ cs + M)
    ∧ ((paraLoop cs 0 pn ps id cur pr).2.2.1 = []
        ∨ ((paraLoop cs 0 pn ps id cur pr).2.2.1.length ≤ Nat.max (cs + 1) M ∧ 1 ≤ M)) := by
  intro ps
  induction ps with
  | nil =>
    intro id cur pr _ hcur
    exact ⟨fun c hc => absurd hc (List.not_mem_nil c), hcur⟩
  | cons p rest ih =>
    intro id cur pr hM hcur
    have hMrest : ∀ q ∈ rest, q.text.length ≤ M := fun q hq => hM q (List.mem_cons_of_mem _ hq)
    have hMp : p.text.length ≤ M := hM p (List.mem_cons_self _ _)
    have hnew : p.text = [] ∨ (p.text.length ≤ Nat.max (cs + 1) M ∧ 1 ≤ M) := by
      by_cases hpt : p.text = []
      · exact Or.inl hpt
      · refine Or.inr ⟨Nat.le_trans hMp (Nat.le_max_right _ _), ?_⟩
        have : 1 ≤ p.text.length := by
          cases hp : p.text with
          | nil => exact absurd hp hpt
          | cons a l => simp
        omega
    by_cases h : cs < (cur ++ p.text).length ∧ ¬ cur = []
    · simp only [paraLoop, if_pos h, Nat.lt_irrefl, if_neg (Nat.lt_irrefl 0)]
      obtain ⟨ih1, ih2⟩ := ih (id + 1) p.text [p.paragraph_id] hMrest hnew
      refine ⟨?_, ih2⟩
      intro c hc
      rcases List.mem_cons.mp hc with hc | hc
      · subst hc
        rcases hcur with hcur | ⟨hlen, hm1⟩
        · exact absurd hcur h.2
        · have hs : (pyStrip cur).length ≤ cur.length := pyStrip_length_le cur
          simp only [mkParaChunk]
          have hmx : Nat.max (cs + 1) M ≤ cs + M :=
            Nat.max_le.mpr ⟨by omega, by omega⟩
          omega
      · exact ih1 c hc
    · simp only [paraLoop, if_neg h]
      have hcur2 :
          (if cur = [] then p.text else cur ++ [' '] ++ p.text) = []
          ∨ ((if cur = [] then p.text else cur ++ [' '] ++ p.text).length
              ≤ Nat.max (cs + 1) M ∧ 1 ≤ M) := by
        by_cases hc : cur = []
        · simpa only [if_pos hc] using hnew
        · have hle : (cur ++ p.text).length ≤ cs := by
            rcases Nat.lt_or_ge cs (cur ++ p.text).length with hlt | hge
            · exact absurd ⟨hlt, hc⟩ h
            · exact hge
          have hm1 : 1 ≤ M := by
            rcases hcur with hcur | ⟨_, hm⟩
            · exact absurd hcur hc
            · exact hm
          refine Or.inr ⟨?_, hm1⟩
          have : (cur ++ [' '] ++ p.text).length = (cur ++ p.text).length + 1 := by
            simp only [List.length_append, List.length_cons, List.length_nil]
            omega
          rw [if_neg hc, this]
          exact Nat.le_trans (by omega) (Nat.le_max_left _ _)
      exact ih id _ (pr ++ [p.paragraph_id]) hMrest hcur2

theorem tableLoop_types (pn : Nat) :
    ∀ (ts : List Table) (id : Nat) (c : Chunk), c ∈ (tableLoop pn ts id).1 →
    c.chunk_type = ChunkType.table := by
  intro ts
  induction ts with
  | nil => intro id c hc; cases hc
  | cons t rest ih =>
    intro id c hc
    rcases List.mem_cons.mp hc with hc | hc
    · subst hc; rfl
    · exact ih (id + 1) c hc

theorem processPage_budget (cs : Nat) (page : Page) (id M : Nat)
    (hM : ∀ p ∈ page.paragraphs, p.text.length ≤ M) :
    ∀ c ∈ (processPage cs 0 page id).1, c.chunk_type = ChunkType.paragraph →
      c.content.length ≤ cs + M := by
  obtain ⟨h1, h2⟩ :=
    paraLoop_budget cs page.page_number M page.paragraphs id [] [] hM (Or.inl rfl)
  unfold processPage
  by_cases h : ¬ pyStrip (paraLoop cs 0 page.page_number page.paragraphs id [] []).2.2.1 = []
  · simp only [if_pos h]
    intro c hc hcp
    rcases List.mem_append.mp hc with hc | hc
    · rcases List.mem_append.mp hc with hc | hc
      · exact h1 c hc
      · rcases List.mem_singleton.mp hc with rfl
        rcases h2 with h2 | ⟨hlen, hm1⟩
        · exact absurd (by rw [h2]; rfl) h
        · have hs := pyStrip_length_le
            (paraLoop cs 0 page.page_number page.paragraphs id [] []).2.2.1
          simp only [mkParaChunk]
          have hmx : Nat.max (cs + 1) M ≤ cs + M :=
            Nat.max_le.mpr ⟨by omega, by omega⟩
          omega
    · exact absurd (tableLoop_types page.page_number page.tables _ c hc)
        (by rw [hcp]; intro hx; cases hx)
  · simp only [if_neg h]
    intro c hc hcp
    rcases List.mem_append.mp hc with hc | hc
    · exact h1 c hc
    · exact absurd (tableLoop_types page.page_number page.tables _ c hc)
        (by rw [hcp]; intro hx; cases hx)

theorem cscAux_budget (cs : Nat) (doc : List Page) :
    ∀ (pages : List Page) (id : Nat), (∀ pg ∈ pages, pg ∈ doc) →
    ∀ c ∈ cscAux cs 0 pages id, c.chunk_type = ChunkType.paragraph →
      c.content.length ≤ cs + maxParaTextLen doc := by
  intro pages
  induction pages with
  | nil => intro id _ c hc; cases hc
  | cons page rest ih =>
    intro id hsub c hc hcp
    rcases List.mem_append.mp hc with hc | hc
    · have hM : ∀ p ∈ page.paragraphs, p.text.length ≤ maxParaTextLen doc :=
        fun p hp => paraLen_le_max (hsub page (List.mem_cons_self _ _)) hp
      exact processPage_budget cs page id (maxParaTextLen doc) hM c hc hcp
    · exact ih (processPage cs 0 page id).2
        (fun pg hpg => hsub pg (List.mem_cons_of_mem _ hpg)) c hc hcp

/-- C2 (amended): when `chunk_overlap = 0`, no paragraph-kind chunk's content
length exceeds `chunk_size` by more than the longest input paragraph's text
length.  (With a positive overlap the bound fails; see the counterexample.) -/
theorem create_semantic_chunks_paragraph_budget (cs : Nat) (doc : List Page) :
    ∀ c ∈ create_semantic_chunks cs 0 doc, c.chunk_type = ChunkType.paragraph →
      c.content.length ≤ cs + maxParaTextLen doc := by
  exact cscAux_budget cs doc doc 1 (fun pg hpg => hpg)

/-! ## Concrete inputs used by counterexamples and witnesses -/

def mkPara (id : Nat) (t : Str) : Paragraph :=
  { paragraph_id := id, text := t, is_bullet := false, is_numbered := false,
    word_count := (pySplit t).length }

def pageC2 : Page :=
  { page_number := 1
    paragraphs := [mkPara 1 "aa bb".toList, mkPara 2 "cc dd".toList, mkPara 3 "x".toList]
    tables := [] }

/-- C2 counterexample: with `chunk_size = 5` and `chunk_overlap = 2`, the
overlap seeding produces a paragraph chunk of length 11, which exceeds
`chunk_size` plus the length of every input paragraph (each at most 5). -/
theorem create_semantic_chunks_budget_cex :
    ∃ c ∈ create_semantic_chunks 5 2 [pageC2],
      c.chunk_type = ChunkType.paragraph ∧
      ∀ pg ∈ [pageC2], ∀ p ∈ pg.paragraphs, 5 + p.text.length < c.content.length := by
  decide

theorem create_semantic_chunks_paragraph_budget_witness :
    (mkParaChunk 1 1 "aa bb".toList [1]).content.length ≤ 5 + maxParaTextLen [pageC2] :=
  create_semantic_chunks_paragraph_budget 5 [pageC2]
    (mkParaChunk 1 1 "aa bb".toList [1]) (by decide) (by decide)

def tableC10 : Table := { table_id := ['t'], data := [] }

def pageC10 : Page := { page_number := 1, paragraphs := [], tables := [tableC10] }

theorem create_semantic_chunks_tables_witness :
    ∃ c ∈ create_semantic_chunks 10 0 [pageC10],
      c.chunk_type = ChunkType.table ∧ c.table_id = some ['t'] ∧
      c.content = [] ∧ c.word_count = 0 ∧ c.char_count = 0 :=
  (create_semantic_chunks_tables 10 0 [pageC10]).2.1 pageC10 (by decide)
    tableC10 (by decide) rfl

/-! ## _extract_paragraphs and the regex split on blank lines

`re.split` with pattern `\n\s*\n` scans left to right; at a position holding
a newline the greedy `\s*` consumes as much whitespace as still leaves a final
newline, i.e. the match extends to the last newline reachable through
whitespace.  `lastNlIdx cs` returns that newline's index within `cs` (the text
after the initial newline), when one exists. -/

def lastNlIdx : Str → Option Nat
  | [] => none
  | c :: cs =>
    if isPySpace c then
      match lastNlIdx cs with
      | some k => some (k + 1)
      | none => if c = '\n' then some 0 else none
    else none

/-- Scanner for `re.split(r'\n\s*\n', ...)`.  Structural recursion on a fuel
argument keeps the definition kernel-reducible; every recursive call shortens
the scanned list by at least one character, so fuel equal to the input length
is always sufficient and the fuel-exhausted branch is unreachable from
`reSplit`. -/
def reSplitFuel : Nat → Str → Str → List Str
  | _, acc, [] => [acc.reverse]
  | 0, acc, rest => [acc.reverse ++ rest]
  | fuel + 1, acc, c :: cs =>
    if c = '\n' then
      match lastNlIdx cs with
      | some p => acc.reverse :: reSplitFuel fuel [] (cs.drop (p + 1))
      | none => reSplitFuel fuel (c :: acc) cs
    else reSplitFuel fuel (c :: acc) cs

/-- Python `re.split(r'\n\s*\n', text)`. -/
def reSplit (s : Str) : List Str :=
  reSplitFuel s.length [] s

/-- `re.match(r'^\s*[-•*]\s+', t)` as a Bool, for `t` already stripped. -/
def matchBullet : Str → Bool
  | g :: c :: _ => (g = '-' || g = '•' || g = '*') && isPySpace c
  | _ => false

/-- `re.match(r'^\s*\d+\.\s+', t)` as a Bool, for `t` already stripped. -/
def matchNumbered : Str → Bool
  | c :: rest =>
    c.isDigit &&
      (match rest.dropWhile Char.isDigit with
       | d :: c2 :: _ => d = '.' && isPySpace c2
       | _ => false)
  | [] => false

/-- `DocumentProcessor._extract_paragraphs`: split on blank-line boundaries,
drop whitespace-only candidates, record `idx + 1` of the raw candidate as the
paragraph id. -/
def extract_paragraphs (text : Str) : List Paragraph :=
  (reSplit text).enum.filterMap (fun pair =>
    let stripped := pyStrip pair.2
    if stripped = [] then none
    else some
      { paragraph_id := pair.1 + 1
        text := stripped
        is_bullet := matchBullet stripped
        is_numbered := matchNumbered stripped
        word_count := (pySplit pair.2).length })

/-! ## C5: paragraph extraction -/

theorem filterMap_sublist_map {α β : Type} (h : α → Option β) (k : α → β)
    (hk : ∀ a, h a = none ∨ h a = some (k a)) :
    ∀ l : List α, List.Sublist (l.filterMap h) (l.map k) := by
  intro l
  induction l with
  | nil => simp
  | cons a rest ih =>
    rcases hk a with ha | ha
    · simp only [List.filterMap_cons, ha, List.map_cons]
      exact ih.cons _
    · simp only [List.filterMap_cons, ha, List.map_cons]
      exact ih.cons₂ _

/-- C5 counterexample: on the page text `"\n\na"` the split produces a leading
whitespace-only candidate, the surviving paragraph keeps raw index 1 and is
assigned id 2, so the ids are not the sequential 1..N claimed. -/
theorem extract_paragraphs_ids_cex :
    ¬ ((extract_paragraphs "\n\na".toList).map Paragraph.paragraph_id
        = List.range' 1 (extract_paragraphs "\n\na".toList).length) := by
  decide

/-- C5 (amended): `_extract_paragraphs` splits on blank-line boundaries and
discards whitespace-only candidates, but each survivor's id is the 1-based
position of its raw candidate in the split — discarded candidates leave gaps,
so the ids are strictly increasing (order preserved from source text) without
being the contiguous 1..N; empty input yields an empty sequence. -/
theorem extract_paragraphs_spec (text : Str) :
    List.Pairwise (· < ·) ((extract_paragraphs text).map Paragraph.paragraph_id)
    ∧ (∀ p ∈ extract_paragraphs text,
        1 ≤ p.paragraph_id ∧ p.paragraph_id ≤ (reSplit text).length ∧
        p.text = pyStrip ((reSplit text).getD (p.paragraph_id - 1) []) ∧
        ¬ p.text = [])
    ∧ extract_paragraphs [] = [] := by
  refine ⟨?_, ?_, by decide⟩
  · have hsub : List.Sublist ((extract_paragraphs text).map Paragraph.paragraph_id)
        ((reSplit text).enum.map (fun pair => pair.1 + 1)) := by
      unfold extract_paragraphs
      rw [List.map_filterMap]
      apply filterMap_sublist_map
      intro pair
      by_cases hs : pyStrip pair.2 = []
      · exact Or.inl (by simp [hs])
      · exact Or.inr (by simp [hs])
    have hrange : (reSplit text).enum.map (fun pair => pair.1 + 1)
        = List.range' 1 (reSplit text).length := by
      have h1 : (reSplit text).enum.map (fun pair => pair.1 + 1)
          = ((reSplit text).enum.map Prod.fst).map (fun i => 1 + i) := by
        rw [List.map_map]
        apply List.map_congr_left
        intro a _
        simp [Nat.add_comm]
      rw [h1, List.enum_map_fst, ← List.range'_eq_map_range]
    exact List.Pairwise.sublist (hrange ▸ hsub)
      (List.pairwise_lt_range' 1 (reSplit text).length)
  · intro p hp
    unfold extract_paragraphs at hp
    obtain ⟨pair, hpair, hf⟩ := List.mem_filterMap.mp hp
    by_cases hs : pyStrip pair.2 = []
    · simp [hs] at hf
    · rw [if_neg hs] at hf
      have hget : (reSplit text).get? pair.1 = some pair.2 := by
        have := List.mem_enum_iff_getElem?.mp hpair
        simpa [List.get?_eq_getElem?] using this
      have hlt : pair.1 < (reSplit text).length := by
        have := List.get?_eq_some.mp hget
        exact this.1
      have hgetD : (reSplit text).getD pair.1 [] = pair.2 := by
        rw [List.getD_eq_getElem?_getD]
        rw [← List.get?_eq_getElem?]
        rw [hget]
        rfl
      obtain rfl := Option.some.inj hf
      refine ⟨?_, ?_, ?_, hs⟩
      · show 1 ≤ pair.1 + 1
        omega
      · show pair.1 + 1 ≤ (reSplit text).length
        omega
      · show pyStrip pair.2 = pyStrip ((reSplit text).getD (pair.1 + 1 - 1) [])
        rw [Nat.add_sub_cancel, hgetD]

def paraC5 : Paragraph :=
  { paragraph_id := 2, text := ['a'], is_bullet := false, is_numbered := false,
    word_count := 1 }

theorem extract_paragraphs_spec_witness :
    1 ≤ paraC5.paragraph_id ∧ paraC5.paragraph_id ≤ (reSplit "\n\na".toList).length ∧
    paraC5.text = pyStrip ((reSplit "\n\na".toList).getD (paraC5.paragraph_id - 1) []) ∧
    ¬ paraC5.text = [] :=
  (extract_paragraphs_spec "\n\na".toList).2.1 paraC5 (by decide)

/-! ## EmbeddingManager: cosine similarity (embedding_manager.py)

Vectors are lists of rationals.  `sklearn.metrics.pairwise.cosine_similarity`
first checks that the two inputs have the same dimensionality (raising
`ValueError` otherwise, modelled as `Except.error`), then L2-normalizes each
row, replacing a zero norm by 1 (the behavior of `sklearn.preprocessing
.normalize`), and takes the dot product.  The square root inside the norm is
abstracted as a parameter `sqrt`; the verified properties depend only on
`sqrt 0 = 0`, which holds for floating-point square root. -/

def dot (a b : List ℚ) : ℚ :=
  (List.zipWith (· * ·) a b).sum

def sumsq (a : List ℚ) : ℚ :=
  dot a a

/-- `sklearn.preprocessing.normalize` on one row: divide by the L2 norm,
with a zero norm replaced by 1. -/
def l2normalize (sqrt : ℚ → ℚ) (v : List ℚ) : List ℚ :=
  let n := sqrt (sumsq v)
  let n2 := if n = 0 then 1 else n
  v.map (fun x => x / n2)

/-- `cosine_similarity([a], [b])[0][0]`: dimension check, then normalized dot
product; `Except.error` models the `ValueError` raised on incompatible
dimensions. -/
def sklearnCosine (sqrt : ℚ → ℚ) (a b : List ℚ) : Except Str ℚ :=
  if ¬ a.length = b.length then
    Except.error "Incompatible dimension for X and Y matrices".toList
  else
    Except.ok (dot (l2normalize sqrt a) (l2normalize sqrt b))

/-- `EmbeddingManager.calculate_similarity`: the `try/except` wrapper returns
`0.0` when the underlying call raises. -/
def calculate_similarity (sqrt : ℚ → ℚ) (a b : List ℚ) : ℚ :=
  match sklearnCosine sqrt a b with
  | Except.ok v => v
  | Except.error _ => 0

theorem dot_zero_left : ∀ (a b : List ℚ), (∀ x ∈ a, x = 0) → dot a b = 0 := by
  intro a
  induction a with
  | nil => intro b _; cases b <;> rfl
  | cons x xs ih =>
    intro b hz
    cases b with
    | nil => rfl
    | cons y ys =>
      have hx : x = 0 := hz x (List.mem_cons_self _ _)
      have : dot xs ys = 0 := ih ys (fun z hzz => hz z (List.mem_cons_of_mem _ hzz))
      simp [dot, List.zipWith] at this ⊢
      simp [hx, this]

theorem dot_zero_right : ∀ (a b : List ℚ), (∀ x ∈ b, x = 0) → dot a b = 0 := by
  intro a
  induction a with
  | nil => intro b _; cases b <;> rfl
  | cons x xs ih =>
    intro b hz
    cases b with
    | nil => rfl
    | cons y ys =>
      have hy : y = 0 := hz y (List.mem_cons_self _ _)
      have : dot xs ys = 0 := ih ys (fun z hzz => hz z (List.mem_cons_of_mem _ hzz))
      simp [dot, List.zipWith] at this ⊢
      simp [hy, this]

theorem sumsq_zero_of_all_zero (a : List ℚ) (hz : ∀ x ∈ a, x = 0) : sumsq a = 0 :=
  dot_zero_left a a hz

theorem l2normalize_all_zero (sqrt : ℚ → ℚ) (a : List ℚ) (hz : ∀ x ∈ a, x = 0) :
    ∀ x ∈ l2normalize sqrt a, x = 0 := by
  intro x hx
  unfold l2normalize at hx
  obtain ⟨y, hy, rfl⟩ := List.mem_map.mp hx
  rw [hz y hy]
  simp

/-- C3: `calculate_similarity` returns exactly 0 whenever either equal-dimension
vector is all-zero (zero magnitude); the function is total — the `try/except`
wrapper means the call never raises. -/
theorem calculate_similarity_zero_vector (sqrt : ℚ → ℚ) (a b : List ℚ)
    (hlen : a.length = b.length)
    (hz : (∀ x ∈ a, x = 0) ∨ (∀ x ∈ b, x = 0)) :
    calculate_similarity sqrt a b = 0 := by
  unfold calculate_similarity sklearnCosine
  rw [if_neg (by omega)]
  rcases hz with hz | hz
  · exact dot_zero_left _ _ (l2normalize_all_zero sqrt a hz)
  · exact dot_zero_right _ _ (l2normalize_all_zero sqrt b hz)

theorem calculate_similarity_zero_vector_witness :
    calculate_similarity id [0, 0] [1, 2] = 0 :=
  calculate_similarity_zero_vector id [0, 0] [1, 2] (by decide) (Or.inl (by decide))

/-- C6 counterexample: comparing vectors of dimensions 1 and 2 in one
`calculate_similarity` invocation returns the zero-similarity fallback `0.0`
rather than surfacing an error — the `except` clause swallows the
`ValueError`. -/
theorem calculate_similarity_dim_mismatch_cex :
    ¬ List.length [(1 : ℚ)] = List.length [(1 : ℚ), 2]
    ∧ calculate_similarity id [1] [1, 2] = 0 := by
  constructor
  · decide
  · rfl

/-- C6 (amended): comparing vectors of different dimensionality makes the
underlying cosine routine raise (modelled as `Except.error`), but
`calculate_similarity` catches the exception and returns the fallback 0 — the
caller observes a zero-similarity result, not an error. -/
theorem calculate_similarity_dim_mismatch (sqrt : ℚ → ℚ) (a b : List ℚ)
    (h : ¬ a.length = b.length) :
    (∃ e, sklearnCosine sqrt a b = Except.error e)
    ∧ calculate_similarity sqrt a b = 0 := by
  constructor
  · exact ⟨_, by unfold sklearnCosine; rw [if_pos h]⟩
  · unfold calculate_similarity sklearnCosine
    rw [if_pos h]

theorem calculate_similarity_dim_mismatch_witness :
    (∃ e, sklearnCosine id [1] [1, 2] = Except.error e)
    ∧ calculate_similarity id [1] [1, 2] = 0 :=
  calculate_similarity_dim_mismatch id [1] [1, 2] (by decide)

/-! ## find_similar_chunks: top-K ranking with a stable descending sort -/

structure SimEntry where
  chunk_index : Nat
  similarity_score : ℚ
  deriving Repr, DecidableEq

/-- Stable insertion for a descending sort: `x` goes in front of the first
element whose key is ≤ its own, so earlier input elements precede later ones
with an equal key — the tie behavior of Python's stable `list.sort(...,
reverse=True)`. -/
def insertDescBy {α : Type} (key : α → ℚ) (x : α) : List α → List α
  | [] => [x]
  | y :: ys => if key y ≤ key x then x :: y :: ys else y :: insertDescBy key x ys

def sortDescBy {α : Type} (key : α → ℚ) : List α → List α
  | [] => []
  | x :: xs => insertDescBy key x (sortDescBy key xs)

/-- The similarity list built by the loop in `find_similar_chunks`. -/
def scoredSims (sqrt : ℚ → ℚ) (q : List ℚ) (ces : List (List ℚ)) : List SimEntry :=
  ces.enum.map (fun p =>
    { chunk_index := p.1, similarity_score := calculate_similarity sqrt q p.2 })

/-- `EmbeddingManager.find_similar_chunks`. -/
def find_similar_chunks (sqrt : ℚ → ℚ) (q : List ℚ) (ces : List (List ℚ))
    (top_k : Nat) : List SimEntry :=
  (sortDescBy SimEntry.similarity_score (scoredSims sqrt q ces)).take top_k

theorem insertDescBy_perm {α : Type} (key : α → ℚ) (x : α) :
    ∀ l : List α, List.Perm (insertDescBy key x l) (x :: l) := by
  intro l
  induction l with
  | nil => simp [insertDescBy]
  | cons y ys ih =>
    unfold insertDescBy
    by_cases h : key y ≤ key x
    · rw [if_pos h]
    · rw [if_neg h]
      exact List.Perm.trans (List.Perm.cons y ih) (List.Perm.swap x y ys)

theorem sortDescBy_perm {α : Type} (key : α → ℚ) :
    ∀ l : List α, List.Perm (sortDescBy key l) l := by
  intro l
  induction l with
  | nil => simp [sortDescBy]
  | cons x xs ih =>
    exact List.Perm.trans (insertDescBy_perm key x (sortDescBy key xs))
      (List.Perm.cons x ih)

theorem insertDescBy_pairwise {α : Type} (key : α → ℚ) (x : α) :
    ∀ l : List α, List.Pairwise (fun a b => key b ≤ key a) l →
    List.Pairwise (fun a b => key b ≤ key a) (insertDescBy key x l) := by
  intro l
  induction l with
  | nil => intro _; simp [insertDescBy]
  | cons y ys ih =>
    intro hp
    rcases List.pairwise_cons.mp hp with ⟨hy, hys⟩
    unfold insertDescBy
    by_cases h : key y ≤ key x
    · rw [if_pos h]
      refine List.pairwise_cons.mpr ⟨?_, hp⟩
      intro z hz
      rcases List.mem_cons.mp hz with hz | hz
      · exact hz ▸ h
      · exact le_trans (hy z hz) h
    · rw [if_neg h]
      refine List.pairwise_cons.mpr ⟨?_, ih hys⟩
      intro z hz
      rcases (insertDescBy_perm key x ys).mem_iff.mp hz with hz
      rcases List.mem_cons.mp hz with hz | hz
      · exact hz ▸ le_of_lt (lt_of_not_le h)
      · exact hy z hz

theorem sortDescBy_pairwise {α : Type} (key : α → ℚ) :
    ∀ l : List α, List.Pairwise (fun a b => key b ≤ key a) (sortDescBy key l) := by
  intro l
  induction l with
  | nil => simp [sortDescBy]
  | cons x xs ih => exact insertDescBy_pairwise key x (sortDescBy key xs) ih

theorem insertDescBy_filter {α : Type} (key : α → ℚ) (s : ℚ) (x : α) :
    ∀ l : List α,
    (insertDescBy key x l).filter (fun a => key a = s)
      = if key x = s then x :: l.filter (fun a => key a = s)
        else l.filter (fun a => key a = s) := by
  intro l
  induction l with
  | nil =>
    by_cases hx : key x = s <;> simp [insertDescBy, hx]
  | cons y ys ih =>
    unfold insertDescBy
    by_cases h : key y ≤ key x
    · rw [if_pos h]
      by_cases hx : key x = s <;> simp [List.filter_cons, hx]
    · rw [if_neg h]
      by_cases hx : key x = s
      · have hy : ¬ key y = s := fun hy => h (le_of_eq (hy.trans hx.symm))
        simp [List.filter_cons, hx, hy, ih]
      · simp [List.filter_cons, hx, ih]

theorem sortDescBy_filter {α : Type} (key : α → ℚ) (s : ℚ) :
    ∀ l : List α,
    (sortDescBy key l).filter (fun a => key a = s) = l.filter (fun a => key a = s) := by
  intro l
  induction l with
  | nil => rfl
  | cons x xs ih =>
    unfold sortDescBy
    rw [insertDescBy_filter]
    by_cases hx : key x = s
    · simp [List.filter_cons, hx, ih]
    · simp [List.filter_cons, hx, ih]

/-- C4: `find_similar_chunks` scores every candidate, sorts descending by
similarity with stable ties (the multiset of entries at each score keeps its
original input order), returns a prefix of length `top_k` of the sorted list,
and when `top_k` exceeds the candidate count it returns all candidates (as a
permutation of the full scored list) without error. -/
theorem find_similar_chunks_spec (sqrt : ℚ → ℚ) (q : List ℚ)
    (ces : List (List ℚ)) (top_k : Nat) :
    (∀ i, i < ces.length →
      ∃ e ∈ sortDescBy SimEntry.similarity_score (scoredSims sqrt q ces),
        e.chunk_index = i
        ∧ e.similarity_score = calculate_similarity sqrt q (ces.getD i []))
    ∧ List.Perm (sortDescBy SimEntry.similarity_score (scoredSims sqrt q ces))
        (scoredSims sqrt q ces)
    ∧ List.Pairwise (fun a b => b.similarity_score ≤ a.similarity_score)
        (find_similar_chunks sqrt q ces top_k)
    ∧ (∀ s : ℚ,
        (sortDescBy SimEntry.similarity_score (scoredSims sqrt q ces)).filter
          (fun e => e.similarity_score = s)
        = (scoredSims sqrt q ces).filter (fun e => e.similarity_score = s))
    ∧ List.IsPrefix (find_similar_chunks sqrt q ces top_k)
        (sortDescBy SimEntry.similarity_score (scoredSims sqrt q ces))
    ∧ (ces.length ≤ top_k →
        List.Perm (find_similar_chunks sqrt q ces top_k) (scoredSims sqrt q ces)) := by
  have hperm := sortDescBy_perm SimEntry.similarity_score (scoredSims sqrt q ces)
  refine ⟨?_, hperm, ?_, fun s => sortDescBy_filter _ s _, List.take_prefix _ _, ?_⟩
  · intro i hi
    have hmem : (i, ces.getD i []) ∈ ces.enum := by
      apply List.mem_enum_iff_getElem?.mpr
      simp only
      rw [List.getElem?_eq_getElem hi]
      rw [List.getD_eq_getElem?_getD, List.getElem?_eq_getElem hi]
      rfl
    have hmem2 : (⟨i, calculate_similarity sqrt q (ces.getD i [])⟩ : SimEntry)
        ∈ scoredSims sqrt q ces := by
      unfold scoredSims
      exact List.mem_map.mpr ⟨(i, ces.getD i []), hmem, rfl⟩
    exact ⟨_, hperm.symm.mem_iff.mp hmem2, rfl, rfl⟩
  · exact List.Pairwise.sublist (List.take_sublist _ _)
      (sortDescBy_pairwise SimEntry.similarity_score (scoredSims sqrt q ces))
  · intro hk
    have hlen : (sortDescBy SimEntry.similarity_score (scoredSims sqrt q ces)).length
        ≤ top_k := by
      rw [hperm.length_eq]
      unfold scoredSims
      rw [List.length_map, List.enum_length]
      exact hk
    unfold find_similar_chunks
    rw [List.take_of_length_le hlen]
    exact hperm

theorem find_similar_chunks_spec_witness :
    List.Perm (find_similar_chunks id [1] [[0], [1]] 5) (scoredSims id [1] [[0], [1]]) :=
  (find_similar_chunks_spec id [1] [[0], [1]] 5).2.2.2.2.2 (by decide)

/-! ## C7: calculate_processing_cost

`round(x, 4)` on Python floats is abstracted as a parameter `round4`; `int(x)`
truncates toward zero, which on the non-negative token total is the floor. -/

/-- Python `int()` conversion: truncation toward zero. -/
def pyInt (q : ℚ) : ℤ :=
  if 0 ≤ q then ⌊q⌋ else -⌊-q⌋

structure CostReport where
  total_chunks : Nat
  estimated_tokens : ℤ
  estimated_cost : ℚ
  cost_per_chunk : ℚ
  deriving Repr, DecidableEq

/-- `DocumentProcessor.calculate_processing_cost`. -/
def calculate_processing_cost (round4 : ℚ → ℚ) (chunks : List Chunk)
    (cost_per_token : ℚ) : CostReport :=
  let total_tokens : ℚ := (chunks.map (fun c => (c.word_count : ℚ) * (13 / 10))).sum
  let total_cost : ℚ := total_tokens * cost_per_token
  { total_chunks := chunks.length
    estimated_tokens := pyInt total_tokens
    estimated_cost := round4 total_cost
    cost_per_chunk :=
      if ¬ chunks = [] then round4 (total_cost / (chunks.length : ℚ)) else 0 }

/-- C7: with no chunks, `cost_per_chunk` is the explicit sentinel 0 and no
division is attempted (the function is total); with chunks present it is the
total estimated cost divided by the chunk count, rounded to 4 decimals. -/
theorem calculate_processing_cost_per_chunk (round4 : ℚ → ℚ) (chunks : List Chunk)
    (cost_per_token : ℚ) :
    (chunks = [] →
      (calculate_processing_cost round4 chunks cost_per_token).cost_per_chunk = 0)
    ∧ (¬ chunks = [] →
      (calculate_processing_cost round4 chunks cost_per_token).cost_per_chunk
        = round4 (((chunks.map (fun c => (c.word_count : ℚ) * (13 / 10))).sum
            * cost_per_token) / (chunks.length : ℚ))) := by
  constructor
  · intro h
    simp [calculate_processing_cost, h]
  · intro h
    simp [calculate_processing_cost, h]

def chunkC7 : Chunk := mkParaChunk 1 1 "hi".toList [1]

theorem calculate_processing_cost_per_chunk_witness :
    (calculate_processing_cost id [] 1).cost_per_chunk = 0
    ∧ (calculate_processing_cost id [chunkC7] 1).cost_per_chunk
      = id ((([chunkC7].map (fun c => (c.word_count : ℚ) * (13 / 10))).sum * 1)
          / (([chunkC7] : List Chunk).length : ℚ)) :=
  ⟨(calculate_processing_cost_per_chunk id [] 1).1 rfl,
   (calculate_processing_cost_per_chunk id [chunkC7] 1).2 (by decide)⟩

/-! ## C9: the lexical vectorizer's fit state is one-way

The TF-IDF numeric content is irrelevant to the claim; the vectorizer is
modelled by the corpus it was fit on, and `transform` is an abstract function
parameter `tf` applied to the current vectorizer. -/

structure Vectorizer where
  corpus : Option (List Str)
  deriving Repr, DecidableEq

structure EmbState where
  vectorizer : Vectorizer
  fitted : Bool
  deriving Repr, DecidableEq

/-- `TfidfVectorizer.fit(...)`: the model becomes the one built on `texts`. -/
def fitVectorizer (texts : List Str) : Vectorizer :=
  { corpus := some texts }

/-- `EmbeddingManager.generate_embeddings`. -/
def generate_embeddings (tf : Vectorizer → List Str → List (List ℚ))
    (s : EmbState) (texts : List Str) : EmbState × List (List ℚ) :=
  if ¬ s.fitted then
    let v2 := fitVectorizer texts
    ({ vectorizer := v2, fitted := true }, tf v2 texts)
  else
    (s, tf s.vectorizer texts)

/-- `EmbeddingManager.generate_single_embedding`. -/
def generate_single_embedding (tf : Vectorizer → List Str → List (List ℚ))
    (s : EmbState) (text : Str) : EmbState × List ℚ :=
  if ¬ s.fitted then
    let v2 := fitVectorizer [text]
    ({ vectorizer := v2, fitted := true }, (tf v2 [text]).getD 0 [])
  else
    (s, (tf s.vectorizer [text]).getD 0 [])

/-- C9: both embedding entry points leave the manager fitted; once fitted, a
call leaves the state (vectorizer included) untouched — the model is reused
via `transform`, never re-fit, and the `fitted` flag never returns to unfit. -/
theorem embedding_fit_one_way (tf : Vectorizer → List Str → List (List ℚ))
    (s : EmbState) (texts : List Str) (text : Str) :
    (generate_embeddings tf s texts).1.fitted = true
    ∧ (generate_single_embedding tf s text).1.fitted = true
    ∧ (s.fitted = true → (generate_embeddings tf s texts).1 = s)
    ∧ (s.fitted = true → (generate_single_embedding tf s text).1 = s) := by
  refine ⟨?_, ?_, ?_, ?_⟩ <;>
    cases hf : s.fitted <;>
      simp [generate_embeddings, generate_single_embedding, hf]

def embStateC9 : EmbState := { vectorizer := { corpus := some [['a']] }, fitted := true }

theorem embedding_fit_one_way_witness :
    (generate_embeddings (fun _ _ => []) embStateC9 []).1 = embStateC9
    ∧ (generate_single_embedding (fun _ _ => []) embStateC9 ['b']).1 = embStateC9 :=
  ⟨(embedding_fit_one_way (fun _ _ => []) embStateC9 [] ['b']).2.2.1 rfl,
   (embedding_fit_one_way (fun _ _ => []) embStateC9 [] ['b']).2.2.2 rfl⟩

/-! ## C8: semantic_search only mutates copies

Python dicts are mutable objects, so the records are modelled through an
explicit store (a heap of dicts addressed by index).  `documents[idx].copy()`
allocates a fresh dict at the end of the store; `result['similarity_score'] =
...` updates that fresh slot in place.  The claim is the frame property: no
slot that existed before the call changes.  The embedding functions are
abstract parameters, as for the other EmbeddingManager claims. -/

inductive PyVal where
  | vStr (s : Str)
  | vNum (q : ℚ)
  deriving Repr, DecidableEq

abbrev Dict := List (Str × PyVal)

abbrev Store := List Dict

def simScoreKey : Str := "similarity_score".toList

def contentKey : Str := "content".toList

/-- Python `d.get(k, dflt)`. -/
def dictGet (d : Dict) (k : Str) (dflt : PyVal) : PyVal :=
  match d.find? (fun kv => kv.1 = k) with
  | some kv => kv.2
  | none => dflt

def hasKey (d : Dict) (k : Str) : Bool :=
  d.any (fun kv => kv.1 = k)

/-- Python `d[k] = v`: overwrite in place if the key exists, else append. -/
def dictSetKey (d : Dict) (k : Str) (v : PyVal) : Dict :=
  if hasKey d k then d.map (fun kv => if kv.1 = k then (k, v) else kv)
  else d ++ [(k, v)]

def asStr : PyVal → Str
  | PyVal.vStr s => s
  | PyVal.vNum _ => []

/-- The `for idx, doc_embedding in enumerate(doc_embeddings)` loop of
`semantic_search`: copy the document record, attach `similarity_score` to the
copy, collect the copy's reference. -/
def ssLoop (sqrt : ℚ → ℚ) (qe : List ℚ) (docRefs : List Nat) :
    List (Nat × List ℚ) → Store → Store × List Nat
  | [], st => (st, [])
  | p :: rest, st =>
    let d := st.getD (docRefs.getD p.1 0) []
    let st2 := (st ++ [d]).set st.length
      (dictSetKey d simScoreKey (PyVal.vNum (calculate_similarity sqrt qe p.2)))
    let r := ssLoop sqrt qe docRefs rest st2
    (r.1, st.length :: r.2)

/-- `x['similarity_score']` as used by the sort key (present on every result). -/
def resultScore (st : Store) (ref : Nat) : ℚ :=
  match dictGet (st.getD ref []) simScoreKey (PyVal.vNum 0) with
  | PyVal.vNum q => q
  | PyVal.vStr _ => 0

/-- `EmbeddingManager.semantic_search` over the store: returns the final store
and the references of the top-K result records. -/
def semantic_search (embed : List Str → List (List ℚ)) (embed1 : Str → List ℚ)
    (sqrt : ℚ → ℚ) (st : Store) (docRefs : List Nat) (query : Str)
    (top_k : Nat) : Store × List Nat :=
  let doc_texts := docRefs.map (fun r =>
    asStr (dictGet (st.getD r []) contentKey (PyVal.vStr [])))
  let r := ssLoop sqrt (embed1 query) docRefs (embed doc_texts).enum st
  (r.1, (sortDescBy (resultScore r.1) r.2).take top_k)

theorem set_append_len {α : Type} (l : List α) (d d2 : α) :
    (l ++ [d]).set l.length d2 = l ++ [d2] := by
  induction l with
  | nil => rfl
  | cons x xs ih => simp [List.set, ih]

theorem hasKey_dictSetKey (d : Dict) (k : Str) (v : PyVal) :
    hasKey (dictSetKey d k v) k = true := by
  unfold dictSetKey
  by_cases h : hasKey d k = true
  · rw [if_pos h]
    unfold hasKey at h
    rcases List.any_eq_true.mp h with ⟨kv, hkv, hk⟩
    apply List.any_eq_true.mpr
    refine ⟨(k, v), List.mem_map.mpr ⟨kv, hkv, ?_⟩, by simp⟩
    rw [if_pos (of_decide_eq_true hk)]
  · rw [if_neg h]
    apply List.any_eq_true.mpr
    exact ⟨(k, v), List.mem_append_right _ (List.mem_singleton.mpr rfl), by simp⟩

theorem ssLoop_frame (sqrt : ℚ → ℚ) (qe : List ℚ) (docRefs : List Nat) :
    ∀ (ps : List (Nat × List ℚ)) (st : Store),
    (st.length ≤ (ssLoop sqrt qe docRefs ps st).1.length)
    ∧ (∀ r, r < st.length →
        (ssLoop sqrt qe docRefs ps st).1.getD r [] = st.getD r [])
    ∧ (∀ ref ∈ (ssLoop sqrt qe docRefs ps st).2,
        st.length ≤ ref
        ∧ hasKey ((ssLoop sqrt qe docRefs ps st).1.getD ref []) simScoreKey = true) := by
  intro ps
  induction ps with
  | nil =>
    intro st
    exact ⟨Nat.le_refl _, fun r _ => rfl, fun ref h => absurd h (List.not_mem_nil ref)⟩
  | cons p rest ih =>
    intro st
    have hred : ssLoop sqrt qe docRefs (p :: rest) st
        = ((ssLoop sqrt qe docRefs rest
              (st ++ [dictSetKey (st.getD (docRefs.getD p.1 0) []) simScoreKey
                (PyVal.vNum (calculate_similarity sqrt qe p.2))])).1,
            st.length :: (ssLoop sqrt qe docRefs rest
              (st ++ [dictSetKey (st.getD (docRefs.getD p.1 0) []) simScoreKey
                (PyVal.vNum (calculate_similarity sqrt qe p.2))])).2) := by
      rw [show ssLoop sqrt qe docRefs (p :: rest) st
          = ((ssLoop sqrt qe docRefs rest
                ((st ++ [st.getD (docRefs.getD p.1 0) []]).set st.length
                  (dictSetKey (st.getD (docRefs.getD p.1 0) []) simScoreKey
                    (PyVal.vNum (calculate_similarity sqrt qe p.2))))).1,
              st.length :: (ssLoop sqrt qe docRefs rest
                ((st ++ [st.getD (docRefs.getD p.1 0) []]).set st.length
                  (dictSetKey (st.getD (docRefs.getD p.1 0) []) simScoreKey
                    (PyVal.vNum (calculate_similarity sqrt qe p.2))))).2)
          from rfl]
      rw [set_append_len]
    obtain ⟨ihlen, ihframe, ihrefs⟩ :=
      ih (st ++ [dictSetKey (st.getD (docRefs.getD p.1 0) []) simScoreKey
        (PyVal.vNum (calculate_similarity sqrt qe p.2))])
    have hlen1 : (st ++ [dictSetKey (st.getD (docRefs.getD p.1 0) []) simScoreKey
        (PyVal.vNum (calculate_similarity sqrt qe p.2))]).length = st.length + 1 := by
      simp
    rw [hred]
    refine ⟨?_, ?_, ?_⟩
    · show st.length ≤ (ssLoop sqrt qe docRefs rest
        (st ++ [dictSetKey (st.getD (docRefs.getD p.1 0) []) simScoreKey
          (PyVal.vNum (calculate_similarity sqrt qe p.2))])).1.length
      omega
    · intro r hr
      rw [ihframe r (by omega)]
      simp [List.getD_eq_getElem?_getD, List.getElem?_append_left hr]
    · intro ref href
      rcases List.mem_cons.mp href with href | href
      · subst href
        refine ⟨Nat.le_refl _, ?_⟩
        rw [ihframe st.length (by omega)]
        simp only [List.getD_eq_getElem?_getD, List.getElem?_concat_length,
          Option.getD_some]
        exact hasKey_dictSetKey _ _ _
      · obtain ⟨h1, h2⟩ := ihrefs ref href
        exact ⟨by omega, h2⟩

/-- C8: `semantic_search` never mutates the stored chunk records: every store
slot that existed before the call is unchanged afterwards — in particular a
stored record that had no `similarity_score` key still has none — while every
returned result is a fresh copy (allocated at or beyond the old store end)
carrying a `similarity_score` key. -/
theorem semantic_search_frame (embed : List Str → List (List ℚ))
    (embed1 : Str → List ℚ) (sqrt : ℚ → ℚ) (st : Store) (docRefs : List Nat)
    (query : Str) (top_k : Nat) :
    (∀ r, r < st.length →
      (semantic_search embed embed1 sqrt st docRefs query top_k).1.getD r []
        = st.getD r [])
    ∧ (∀ r, r < st.length → hasKey (st.getD r []) simScoreKey = false →
      hasKey ((semantic_search embed embed1 sqrt st docRefs query top_k).1.getD r [])
        simScoreKey = false)
    ∧ (∀ ref ∈ (semantic_search embed embed1 sqrt st docRefs query top_k).2,
      st.length ≤ ref
      ∧ hasKey ((semantic_search embed embed1 sqrt st docRefs query top_k).1.getD ref [])
          simScoreKey = true) := by
  obtain ⟨hlen, hframe, hrefs⟩ := ssLoop_frame sqrt (embed1 query) docRefs
    ((embed (docRefs.map (fun r =>
      asStr (dictGet (st.getD r []) contentKey (PyVal.vStr []))))).enum) st
  refine ⟨?_, ?_, ?_⟩
  · intro r hr
    exact hframe r hr
  · intro r hr hno
    rw [show (semantic_search embed embed1 sqrt st docRefs query top_k).1.getD r []
        = st.getD r [] from hframe r hr]
    exact hno
  · intro ref href
    apply hrefs
    have hsub : ref ∈ sortDescBy
        (resultScore (ssLoop sqrt (embed1 query) docRefs
          ((embed (docRefs.map (fun r =>
            asStr (dictGet (st.getD r []) contentKey (PyVal.vStr []))))).enum) st).1)
        (ssLoop sqrt (embed1 query) docRefs
          ((embed (docRefs.map (fun r =>
            asStr (dictGet (st.getD r []) contentKey (PyVal.vStr []))))).enum) st).2 :=
      (List.take_sublist _ _).subset href
    exact (sortDescBy_perm _ _).mem_iff.mp hsub

def storeC8 : Store := [[(contentKey, PyVal.vStr ['h'])]]

theorem semantic_search_frame_witness :
    (semantic_search (fun ts => ts.map (fun _ => [1])) (fun _ => [1]) id
        storeC8 [0] ['q'] 5).1.getD 0 []
      = storeC8.getD 0 []
    ∧ hasKey ((semantic_search (fun ts => ts.map (fun _ => [1])) (fun _ => [1]) id
        storeC8 [0] ['q'] 5).1.getD 0 []) simScoreKey = false :=
  ⟨(semantic_search_frame (fun ts => ts.map (fun _ => [1])) (fun _ => [1]) id
      storeC8 [0] ['q'] 5).1 0 (by decide),
   (semantic_search_frame (fun ts => ts.map (fun _ => [1])) (fun _ => [1]) id
      storeC8 [0] ['q'] 5).2.1 0 (by decide) (by decide)⟩

end KgBuilder
